import Mathlib

/-!
Verification of the zoom visibility core of `obsidian-zoom`
(`src/logic/KeepOnlyZoomedContentVisible.ts`).

The core is a CodeMirror state field holding a decoration set of hidden
segments, updated by a pure reducer over (previous set, document change
batch, zoom effects), together with a visibility query deriving the
single visible range from the hidden-segment set.

Embedding choices:
- Document offsets are `Nat` (CodeMirror positions are non-negative).
- The decoration set is a list of segments kept sorted by `from`, as the
  host range set iterates ranges in ascending position order.
- The host's range mapping through a change batch is external library
  behaviour (`@codemirror/state`), modelled from the spec: a position
  mapping utility applied per segment boundary. The source marks hidden
  ranges with `Decoration.replace({ block: true })`, whose boundaries are
  inclusive: text inserted exactly at a segment start stays covered (the
  start does not move), text inserted exactly at a segment end becomes
  covered (the end moves past it).
- The visibility query returns `Int` bounds, since the JavaScript
  arithmetic `b.from - 1` may go below zero.
-/

/-- A hidden segment: a half-open offset range `[from, to)` of the document,
as stored in the decoration set. -/
structure Segment where
  «from» : Nat
  «to» : Nat
deriving DecidableEq, Repr

/-- The visible range answered by the visibility query; bounds are integers
because the JavaScript subtractions may produce `-1`. -/
structure VisibleRange where
  «from» : Int
  «to» : Int
deriving DecidableEq, Repr

/-- One document change of a batch: replace `[deleteFrom, deleteTo)` by
`insertLen` fresh characters. A batch is a list of such changes, each
expressed in the coordinates left by the previous one. -/
structure Change where
  deleteFrom : Nat
  deleteTo : Nat
  insertLen : Nat
deriving DecidableEq, Repr

/-- Modelled from the spec: the host's position mapping (`@codemirror/state`
is not part of this repository). Maps a segment START boundary through one
change. The decoration is an inclusive block replacement, so an insertion
exactly at the start position stays inside the hidden range: the start does
not move. A position inside the deleted span collapses to the start of the
replacement. -/
def mapPosStart1 (c : Change) (p : Nat) : Nat :=
  if p ≤ c.deleteFrom then p
  else if p < c.deleteTo then c.deleteFrom
  else p - (c.deleteTo - c.deleteFrom) + c.insertLen

/-- Modelled from the spec: maps a segment END boundary through one change.
The decoration is an inclusive block replacement, so an insertion exactly at
the end position becomes hidden: the end moves past the inserted text. A
position inside the deleted span collapses to the end of the replacement. -/
def mapPosEnd1 (c : Change) (p : Nat) : Nat :=
  if p < c.deleteFrom then p
  else if p < c.deleteTo then c.deleteFrom + c.insertLen
  else p - (c.deleteTo - c.deleteFrom) + c.insertLen

/-- Maps a start boundary through a whole change batch. -/
def mapPosStart (cs : List Change) (p : Nat) : Nat :=
  cs.foldl (fun q c => mapPosStart1 c q) p

/-- Maps an end boundary through a whole change batch. -/
def mapPosEnd (cs : List Change) (p : Nat) : Nat :=
  cs.foldl (fun q c => mapPosEnd1 c q) p

/-- Embedding of `value.map(tr.changes)`: every segment's boundaries are
translated through the change batch; the segment count is unchanged
(spec 4.1). -/
def rangeSetMap (cs : List Change) (v : List Segment) : List Segment :=
  v.map (fun s => ⟨mapPosStart cs s.«from», mapPosEnd cs s.«to»⟩)

/-- Embedding of `value.update({ add: [r] })`: the host range set keeps its
ranges sorted by position, so adding inserts at the sorted place. -/
def rangeSetAdd (s : Segment) : List Segment → List Segment
  | [] => [s]
  | x :: xs => if s.«from» ≤ x.«from» then s :: x :: xs else x :: rangeSetAdd s xs

/-- A zoom effect as defined in `src/logic/utils/effects.ts` (zoomInEffect
carries `{from, to}`, zoomOutEffect carries nothing). -/
inductive ZoomEffect where
  | zoomIn («from» «to» : Nat)
  | zoomOut
deriving DecidableEq, Repr

/-- The pieces of a transaction the reducer reads: the change batch, the
post-change document length (`tr.newDoc.length`) and the zoom effects. -/
structure Transaction where
  changes : List Change
  newDocLength : Nat
  effects : List ZoomEffect
deriving Repr

/-- One iteration of the effect loop in `zoomStateField.update`: a zoom-in
effect clears the set (`filter: () => false`) and then adds `[0, from-1)`
when `from > 0` and `[to+1, L)` when `to < L`, with `L = tr.newDoc.length`;
a zoom-out effect clears the set. -/
def applyZoomEffect (L : Nat) (value : List Segment) (e : ZoomEffect) : List Segment :=
  match e with
  | .zoomIn f t =>
      let v1 := value.filter (fun _ => false)
      let v2 := if 0 < f then rangeSetAdd ⟨0, f - 1⟩ v1 else v1
      let v3 := if t < L then rangeSetAdd ⟨t + 1, L⟩ v2 else v2
      v3
  | .zoomOut => value.filter (fun _ => false)

/-- Embedding of `zoomStateField.update`: first `value = value.map(tr.changes)`,
then the loop over `tr.effects`. -/
def zoomStateFieldUpdate (value : List Segment) (tr : Transaction) : List Segment :=
  tr.effects.foldl (applyZoomEffect tr.newDocLength) (rangeSetMap tr.changes value)

/-- Embedding of `zoomStateField.create`: `Decoration.none`, the empty set. -/
def zoomStateFieldCreate : List Segment := []

/-- The state after a sequence of transactions starting from the initial
(empty) field value. -/
def runUpdates (trs : List Transaction) : List Segment :=
  trs.foldl zoomStateFieldUpdate zoomStateFieldCreate

/-- Modelled from the spec: `rangeSetToArray` (in
`src/logic/utils/rangeSetToArray.ts`, not under `src/`) reads the range set
out as a list in ascending position order; in this embedding the set already
is that ordered list. -/
def rangeSetToArray (v : List Segment) : List Segment := v

/-- Embedding of `calculateHiddenContentRanges`. -/
def calculateHiddenContentRanges (v : List Segment) : List Segment :=
  rangeSetToArray v

/-- Embedding of `calculateVisibleContentRange`; `docLength` is
`state.doc.length`. -/
def calculateVisibleContentRange (docLength : Nat) (v : List Segment) : Option VisibleRange :=
  match calculateHiddenContentRanges v with
  | [a] =>
      if a.«from» = 0 then some ⟨(a.«to» : Int) + 1, (docLength : Int)⟩
      else some ⟨0, (a.«from» : Int) - 1⟩
  | [a, b] => some ⟨(a.«to» : Int) + 1, (b.«from» : Int) - 1⟩
  | _ => none

/-- Embedding of the facade method `keepOnlyZoomedContentVisible(view, from, to)`.
Before dispatching it computes the indent hint via `calculateIndentLevel`,
which calls `view.state.doc.lineAt(from)`; the host's `Text.lineAt` throws a
`RangeError` when the position exceeds the document length, so for
`from > len(doc)` the call aborts with that exception and dispatches nothing.
Otherwise it dispatches exactly one zoom-in effect carrying `from` and `to`
unchanged — no check or clamp of either offset (the view scrolling, logging
and indent styling are outside the core model). -/
def keepOnlyZoomedContentVisible (docLength «from» «to» : Nat) :
    Except String (List ZoomEffect) :=
  if «from» ≤ docLength then Except.ok [ZoomEffect.zoomIn «from» «to»]
  else Except.error "RangeError"

/-- Segments listed in ascending order of their `from` offsets. -/
def segmentsAscending (v : List Segment) : Prop :=
  List.Pairwise (fun a b => a.«from» ≤ b.«from») v

/-- No two segments overlap: listed in order, each ends no later than the
next begins (half-open ranges are then disjoint). -/
def segmentsDisjoint (v : List Segment) : Prop :=
  List.Pairwise (fun a b => a.«to» ≤ b.«from») v

/-- The invariant claimed of the hidden-segment set. -/
def zoomInvariant (v : List Segment) : Prop :=
  v.length ≤ 2 ∧ segmentsAscending v ∧ segmentsDisjoint v

/-- A zoom-in effect whose range respects the caller contract `from ≤ to`. -/
def effectRangeValid : ZoomEffect → Prop
  | .zoomIn f t => f ≤ t
  | .zoomOut => True

/-- A change that inserts text without deleting any. -/
def insertOnlyChange (c : Change) : Prop :=
  c.deleteTo = c.deleteFrom

instance (v : List Segment) : Decidable (segmentsAscending v) :=
  inferInstanceAs (Decidable (List.Pairwise _ v))

instance (v : List Segment) : Decidable (segmentsDisjoint v) :=
  inferInstanceAs (Decidable (List.Pairwise _ v))

instance (v : List Segment) : Decidable (zoomInvariant v) :=
  inferInstanceAs (Decidable (v.length ≤ 2 ∧ segmentsAscending v ∧ segmentsDisjoint v))

instance (e : ZoomEffect) : Decidable (effectRangeValid e) :=
  match e with
  | .zoomIn f t => inferInstanceAs (Decidable (f ≤ t))
  | .zoomOut => inferInstanceAs (Decidable True)

instance (c : Change) : Decidable (insertOnlyChange c) :=
  inferInstanceAs (Decidable (c.deleteTo = c.deleteFrom))

/-- Strictly separated segments: listed in order, each ends strictly before
the next begins; used as the inductive strengthening of disjointness. -/
def strictGap (v : List Segment) : Prop :=
  List.Pairwise (fun a b => a.«to» < b.«from») v

instance (v : List Segment) : Decidable (strictGap v) :=
  inferInstanceAs (Decidable (List.Pairwise _ v))

lemma filter_false_eq_nil (v : List Segment) : v.filter (fun _ => false) = [] := by
  simp

lemma applyZoomEffect_zoomIn_eq (L : Nat) (v : List Segment) (f t : Nat) :
    applyZoomEffect L v (.zoomIn f t)
      = (if 0 < f then [⟨0, f - 1⟩] else []) ++ (if t < L then [⟨t + 1, L⟩] else []) := by
  unfold applyZoomEffect
  by_cases hf : 0 < f <;> by_cases ht : t < L <;>
    simp [hf, ht, rangeSetAdd, filter_false_eq_nil]

lemma applyZoomEffect_zoomOut_eq (L : Nat) (v : List Segment) :
    applyZoomEffect L v .zoomOut = [] := by
  unfold applyZoomEffect
  simp [filter_false_eq_nil]

lemma mapPosStart_nil (p : Nat) : mapPosStart [] p = p := rfl

lemma mapPosEnd_nil (p : Nat) : mapPosEnd [] p = p := rfl

lemma rangeSetMap_nil (v : List Segment) : rangeSetMap [] v = v := by
  unfold rangeSetMap
  simp [mapPosStart_nil, mapPosEnd_nil]

lemma mapPosStart_cons (c : Change) (cs : List Change) (p : Nat) :
    mapPosStart (c :: cs) p = mapPosStart cs (mapPosStart1 c p) := rfl

lemma mapPosEnd_cons (c : Change) (cs : List Change) (p : Nat) :
    mapPosEnd (c :: cs) p = mapPosEnd cs (mapPosEnd1 c p) := rfl

lemma mapPosStart1_mono (c : Change) {p q : Nat} (h : p ≤ q) :
    mapPosStart1 c p ≤ mapPosStart1 c q := by
  unfold mapPosStart1
  repeat' split
  all_goals omega

lemma mapPosEnd1_mono (c : Change) {p q : Nat} (h : p ≤ q) :
    mapPosEnd1 c p ≤ mapPosEnd1 c q := by
  unfold mapPosEnd1
  repeat' split
  all_goals omega

lemma mapPosStart_mono (cs : List Change) {p q : Nat} (h : p ≤ q) :
    mapPosStart cs p ≤ mapPosStart cs q := by
  induction cs generalizing p q with
  | nil => exact h
  | cons c cs ih => exact ih (mapPosStart1_mono c h)

lemma mapPosEnd_mono (cs : List Change) {p q : Nat} (h : p ≤ q) :
    mapPosEnd cs p ≤ mapPosEnd cs q := by
  induction cs generalizing p q with
  | nil => exact h
  | cons c cs ih => exact ih (mapPosEnd1_mono c h)

lemma mapPos1_gap (c : Change) (hc : insertOnlyChange c) {p q : Nat} (h : p < q) :
    mapPosEnd1 c p < mapPosStart1 c q := by
  unfold insertOnlyChange at hc
  unfold mapPosEnd1 mapPosStart1
  repeat' split
  all_goals omega

lemma mapPos_gap (cs : List Change) (hc : ∀ c ∈ cs, insertOnlyChange c) {p q : Nat}
    (h : p < q) : mapPosEnd cs p < mapPosStart cs q := by
  induction cs generalizing p q with
  | nil => exact h
  | cons c cs ih =>
      rw [mapPosEnd_cons, mapPosStart_cons]
      exact ih (fun d hd => hc d (List.mem_cons_of_mem c hd))
        (mapPos1_gap c (hc c (List.mem_cons_self c cs)) h)

lemma rangeSetMap_length (cs : List Change) (v : List Segment) :
    (rangeSetMap cs v).length = v.length := by
  unfold rangeSetMap
  simp

lemma rangeSetMap_ascending (cs : List Change) {v : List Segment}
    (h : segmentsAscending v) : segmentsAscending (rangeSetMap cs v) := by
  unfold segmentsAscending rangeSetMap at *
  rw [List.pairwise_map]
  exact h.imp (fun hab => mapPosStart_mono cs hab)

lemma rangeSetMap_strictGap (cs : List Change) (hc : ∀ c ∈ cs, insertOnlyChange c)
    {v : List Segment} (h : strictGap v) : strictGap (rangeSetMap cs v) := by
  unfold strictGap rangeSetMap at *
  rw [List.pairwise_map]
  exact h.imp (fun hab => mapPos_gap cs hc hab)

lemma applyZoomEffect_weak (L : Nat) (v : List Segment) (e : ZoomEffect) :
    (applyZoomEffect L v e).length ≤ 2 ∧ segmentsAscending (applyZoomEffect L v e) := by
  cases e with
  | zoomOut =>
      rw [applyZoomEffect_zoomOut_eq]
      exact ⟨by simp, List.Pairwise.nil⟩
  | zoomIn f t =>
      rw [applyZoomEffect_zoomIn_eq]
      unfold segmentsAscending
      by_cases hf : 0 < f <;> by_cases ht : t < L <;> simp [hf, ht]

lemma applyZoomEffect_strong (L : Nat) (v : List Segment) {e : ZoomEffect}
    (he : effectRangeValid e) :
    (applyZoomEffect L v e).length ≤ 2 ∧ segmentsAscending (applyZoomEffect L v e) ∧
      strictGap (applyZoomEffect L v e) := by
  cases e with
  | zoomOut =>
      rw [applyZoomEffect_zoomOut_eq]
      exact ⟨by simp, List.Pairwise.nil, List.Pairwise.nil⟩
  | zoomIn f t =>
      unfold effectRangeValid at he
      rw [applyZoomEffect_zoomIn_eq]
      unfold segmentsAscending strictGap
      by_cases hf : 0 < f <;> by_cases ht : t < L <;> simp [hf, ht] <;> omega

lemma foldl_effects_weak (L : Nat) (es : List ZoomEffect) {w : List Segment}
    (hw : w.length ≤ 2 ∧ segmentsAscending w) :
    (es.foldl (applyZoomEffect L) w).length ≤ 2 ∧
      segmentsAscending (es.foldl (applyZoomEffect L) w) := by
  induction es generalizing w with
  | nil => exact hw
  | cons e es ih => exact ih (applyZoomEffect_weak L w e)

lemma foldl_effects_strong (L : Nat) {es : List ZoomEffect}
    (he : ∀ e ∈ es, effectRangeValid e) {w : List Segment}
    (hw : w.length ≤ 2 ∧ segmentsAscending w ∧ strictGap w) :
    (es.foldl (applyZoomEffect L) w).length ≤ 2 ∧
      segmentsAscending (es.foldl (applyZoomEffect L) w) ∧
      strictGap (es.foldl (applyZoomEffect L) w) := by
  induction es generalizing w with
  | nil => exact hw
  | cons e es ih =>
      exact ih (fun d hd => he d (List.mem_cons_of_mem e hd))
        (applyZoomEffect_strong L w (he e (List.mem_cons_self e es)))

lemma zoomStateFieldUpdate_weak {v : List Segment}
    (hv : v.length ≤ 2 ∧ segmentsAscending v) (tr : Transaction) :
    (zoomStateFieldUpdate v tr).length ≤ 2 ∧
      segmentsAscending (zoomStateFieldUpdate v tr) := by
  unfold zoomStateFieldUpdate
  refine foldl_effects_weak _ _ ⟨?_, rangeSetMap_ascending _ hv.2⟩
  rw [rangeSetMap_length]
  exact hv.1

lemma zoomStateFieldUpdate_strong {v : List Segment}
    (hv : v.length ≤ 2 ∧ segmentsAscending v ∧ strictGap v) {tr : Transaction}
    (he : ∀ e ∈ tr.effects, effectRangeValid e)
    (hc : ∀ c ∈ tr.changes, insertOnlyChange c) :
    (zoomStateFieldUpdate v tr).length ≤ 2 ∧
      segmentsAscending (zoomStateFieldUpdate v tr) ∧
      strictGap (zoomStateFieldUpdate v tr) := by
  unfold zoomStateFieldUpdate
  refine foldl_effects_strong _ he
    ⟨?_, rangeSetMap_ascending _ hv.2.1, rangeSetMap_strictGap _ hc hv.2.2⟩
  rw [rangeSetMap_length]
  exact hv.1

lemma foldl_updates_weak (trs : List Transaction) {v : List Segment}
    (hv : v.length ≤ 2 ∧ segmentsAscending v) :
    (trs.foldl zoomStateFieldUpdate v).length ≤ 2 ∧
      segmentsAscending (trs.foldl zoomStateFieldUpdate v) := by
  induction trs generalizing v with
  | nil => exact hv
  | cons tr trs ih => exact ih (zoomStateFieldUpdate_weak hv tr)

lemma foldl_updates_strong {trs : List Transaction}
    (h : ∀ tr ∈ trs, (∀ e ∈ tr.effects, effectRangeValid e) ∧
      ∀ c ∈ tr.changes, insertOnlyChange c) {v : List Segment}
    (hv : v.length ≤ 2 ∧ segmentsAscending v ∧ strictGap v) :
    (trs.foldl zoomStateFieldUpdate v).length ≤ 2 ∧
      segmentsAscending (trs.foldl zoomStateFieldUpdate v) ∧
      strictGap (trs.foldl zoomStateFieldUpdate v) := by
  induction trs generalizing v with
  | nil => exact hv
  | cons tr trs ih =>
      exact ih (fun d hd => h d (List.mem_cons_of_mem tr hd))
        (zoomStateFieldUpdate_strong hv (h tr (List.mem_cons_self tr trs)).1
          (h tr (List.mem_cons_self tr trs)).2)

lemma update_zoomIn_eq (v : List Segment) (L f t : Nat) :
    zoomStateFieldUpdate v ⟨[], L, [.zoomIn f t]⟩
      = (if 0 < f then [⟨0, f - 1⟩] else []) ++ (if t < L then [⟨t + 1, L⟩] else []) := by
  unfold zoomStateFieldUpdate
  simp only [List.foldl]
  rw [applyZoomEffect_zoomIn_eq]

lemma visible_after_zoomIn (v : List Segment) (L f t : Nat)
    (hft : f ≤ t) (htL : t ≤ L) (hne : ¬(f = 0 ∧ t = L)) :
    calculateVisibleContentRange L (zoomStateFieldUpdate v ⟨[], L, [.zoomIn f t]⟩)
      = some ⟨(f : Int), (t : Int)⟩ := by
  rw [update_zoomIn_eq]
  by_cases hf : 0 < f <;> by_cases ht : t < L <;>
    simp [hf, ht, calculateVisibleContentRange, calculateHiddenContentRanges,
      rangeSetToArray]
  all_goals first
  | (constructor <;> omega)
  | omega
  | exact hne ⟨by omega, by omega⟩

/-- C1: processing a zoom-in(from, to) effect clears all prior segments (the
result does not depend on the previous value), adds the segment `[0, from-1)`
exactly when `from > 0` and the segment `[to+1, L)` exactly when `to < L`
(`L` the post-change document length); when `from = 0` and `to = L` the
resulting segment set is empty. -/
theorem zoomIn_effect_segments (L : Nat) (v : List Segment) (f t : Nat) :
    applyZoomEffect L v (.zoomIn f t)
        = (if 0 < f then [⟨0, f - 1⟩] else []) ++ (if t < L then [⟨t + 1, L⟩] else []) ∧
      (f = 0 → t = L → applyZoomEffect L v (.zoomIn f t) = []) := by
  refine ⟨applyZoomEffect_zoomIn_eq L v f t, fun hf ht => ?_⟩
  rw [applyZoomEffect_zoomIn_eq]
  simp [hf, ht]

/-- Witness for C1: at document length 10, zoom-in(0, 10) leaves no segments,
by the edge-case part of the theorem. -/
theorem zoomIn_effect_segments_witness :
    applyZoomEffect 10 [⟨1, 2⟩] (.zoomIn 0 10) = [] :=
  (zoomIn_effect_segments 10 [⟨1, 2⟩] 0 10).2 rfl rfl

/-- C10: zero-width hidden segments occur at the public interface: zoom-in
with from = 1 adds the empty prefix segment [0, 0), and zoom-in with
to = L - 1 adds the empty suffix segment [L, L); both are counted and
reported by the hidden-ranges query, and the visibility query still returns
exactly (from, to). -/
theorem empty_boundary_segments (v : List Segment) (L t f : Nat)
    (ht : t < L) (hf : 0 < f) (hL : 0 < L) :
    (calculateHiddenContentRanges (zoomStateFieldUpdate v ⟨[], L, [.zoomIn 1 t]⟩)
        = [⟨0, 0⟩, ⟨t + 1, L⟩] ∧
      calculateVisibleContentRange L (zoomStateFieldUpdate v ⟨[], L, [.zoomIn 1 t]⟩)
        = some ⟨1, (t : Int)⟩) ∧
    (calculateHiddenContentRanges (zoomStateFieldUpdate v ⟨[], L, [.zoomIn f (L - 1)]⟩)
        = [⟨0, f - 1⟩, ⟨L, L⟩] ∧
      calculateVisibleContentRange L (zoomStateFieldUpdate v ⟨[], L, [.zoomIn f (L - 1)]⟩)
        = some ⟨(f : Int), (L : Int) - 1⟩) := by
  have hL1 : L - 1 < L := by omega
  have hL2 : L - 1 + 1 = L := by omega
  refine ⟨⟨?_, ?_⟩, ⟨?_, ?_⟩⟩ <;>
    rw [update_zoomIn_eq] <;>
    simp [ht, hf, hL1, hL2, calculateVisibleContentRange, calculateHiddenContentRanges,
      rangeSetToArray, rangeSetAdd]
  all_goals omega

/-- Witness for C10 at document length 9, with t = 8 and f = 4. -/
theorem empty_boundary_segments_witness :
    calculateHiddenContentRanges (zoomStateFieldUpdate [] ⟨[], 9, [.zoomIn 1 8]⟩)
      = [⟨0, 0⟩, ⟨9, 9⟩] :=
  ((empty_boundary_segments [] 9 8 4 (by decide) (by decide) (by decide)).1).1

/-- C3: every reducer update first maps the existing segment set through the
document-change batch and only afterwards applies the zoom effects: an
update with changes and effects equals the effect-free update (the pure map
step) followed by a change-free update carrying the effects; and an update
with no effect still performs exactly the map step. -/
theorem update_maps_before_effects (v : List Segment) (cs : List Change) (L : Nat)
    (es : List ZoomEffect) :
    zoomStateFieldUpdate v ⟨cs, L, es⟩
        = zoomStateFieldUpdate (zoomStateFieldUpdate v ⟨cs, L, []⟩) ⟨[], L, es⟩ ∧
      zoomStateFieldUpdate v ⟨cs, L, []⟩ = rangeSetMap cs v := by
  constructor
  · unfold zoomStateFieldUpdate
    simp [rangeSetMap_nil]
  · rfl

/-- C4 counterexample: the claimed invariant fails as stated. Starting from
the empty set: zoom-in(5, 10) at document length 20 (a well-formed range, so
every effect in the history satisfies the caller contract), then delete the
span [4, 11) bridging the gap between the two hidden segments, then insert
two characters at the junction offset 4. The two segments become [0, 6) and
[4, 15), which overlap, so the resulting set violates the invariant. -/
theorem zoom_invariant_counterexample :
    (∀ tr ∈ [(⟨[], 20, [.zoomIn 5 10]⟩ : Transaction), ⟨[⟨4, 11, 0⟩], 13, []⟩,
        ⟨[⟨4, 4, 2⟩], 15, []⟩], ∀ e ∈ tr.effects, effectRangeValid e) ∧
      runUpdates [⟨[], 20, [.zoomIn 5 10]⟩, ⟨[⟨4, 11, 0⟩], 13, []⟩, ⟨[⟨4, 4, 2⟩], 15, []⟩]
        = [⟨0, 6⟩, ⟨4, 15⟩] ∧
      ¬ zoomInvariant
        (runUpdates [⟨[], 20, [.zoomIn 5 10]⟩, ⟨[⟨4, 11, 0⟩], 13, []⟩,
          ⟨[⟨4, 4, 2⟩], 15, []⟩]) := by
  refine ⟨by decide, by decide, by decide⟩

/-- C4 (amended): every reducer update starting from the empty initial set
keeps at most two segments, reported by the ordered listing in ascending order
of their from offsets; the segments additionally never overlap provided every
zoom-in effect in the history satisfies the caller contract from ≤ to and all
document changes are pure insertions (a deletion bridging the gap between the
two segments followed by an insertion at the junction can make them overlap). -/
theorem zoom_invariant_holds (trs : List Transaction) :
    ((runUpdates trs).length ≤ 2 ∧ segmentsAscending (runUpdates trs)) ∧
      ((∀ tr ∈ trs, (∀ e ∈ tr.effects, effectRangeValid e) ∧
          ∀ c ∈ tr.changes, insertOnlyChange c) →
        zoomInvariant (runUpdates trs)) := by
  constructor
  · exact foldl_updates_weak trs ⟨by decide, List.Pairwise.nil⟩
  · intro h
    have hs := foldl_updates_strong h
      (v := zoomStateFieldCreate) ⟨by decide, List.Pairwise.nil, List.Pairwise.nil⟩
    exact ⟨hs.1, hs.2.1, hs.2.2.imp (fun hab => Nat.le_of_lt hab)⟩

/-- Witness for C4 (amended): a valid zoom followed by a pure insertion
satisfies the full invariant. -/
theorem zoom_invariant_holds_witness :
    zoomInvariant (runUpdates [⟨[], 20, [.zoomIn 5 10]⟩, ⟨[⟨2, 2, 3⟩], 23, []⟩]) :=
  (zoom_invariant_holds [⟨[], 20, [.zoomIn 5 10]⟩, ⟨[⟨2, 2, 3⟩], 23, []⟩]).2 (by decide)

/-- C9 counterexample: the facade neither validates its range nor handles a
malformed one consistently. At document length 5 the call with (4, 2)
(from > to) and the call with (3, 99) (to far beyond the document) both
dispatch the zoom-in effect with the arguments unchanged — no assertion, no
clamp, no rejection — while the call with (7, 99) (from beyond the document)
aborts with a RangeError thrown incidentally by the indent computation's
doc.lineAt, not by any documented validation: out-of-range arguments are
either silently passed through or crash, depending on which bound is bad. -/
theorem facade_no_validation_counterexample :
    (¬ (4 : Nat) ≤ 2 ∧
        keepOnlyZoomedContentVisible 5 4 2 = Except.ok [.zoomIn 4 2]) ∧
      (¬ (99 : Nat) ≤ 5 ∧
        keepOnlyZoomedContentVisible 5 3 99 = Except.ok [.zoomIn 3 99]) ∧
      keepOnlyZoomedContentVisible 5 7 99 = Except.error "RangeError" ∧
      zoomStateFieldUpdate zoomStateFieldCreate ⟨[], 5, [.zoomIn 3 99]⟩ = [⟨0, 2⟩] := by
  refine ⟨⟨by decide, rfl⟩, ⟨by decide, rfl⟩, rfl, by decide⟩

/-- C9 (amended): the facade method keepOnlyZoomedContentVisible performs no
range validation: whenever from ≤ len(doc) it dispatches exactly one zoom-in
effect carrying from and to unchanged, even when from > to or to > len(doc);
when from > len(doc) it instead aborts with the RangeError thrown by the
indent computation's doc.lineAt before anything is dispatched — an
incidental, undocumented crash, not a consistent handling of the caller
contract, which is left entirely to callers. -/
theorem facade_forwards_range_unchanged (docLength f t : Nat) :
    (f ≤ docLength →
        keepOnlyZoomedContentVisible docLength f t
          = Except.ok [ZoomEffect.zoomIn f t]) ∧
      (docLength < f →
        keepOnlyZoomedContentVisible docLength f t = Except.error "RangeError") := by
  unfold keepOnlyZoomedContentVisible
  constructor
  · intro h
    rw [if_pos h]
  · intro h
    rw [if_neg (by omega)]

/-- Witness for C9 (amended): at document length 5, the malformed range (4, 2)
is dispatched unchanged and the out-of-document position 7 aborts. -/
theorem facade_forwards_range_unchanged_witness :
    keepOnlyZoomedContentVisible 5 4 2 = Except.ok [ZoomEffect.zoomIn 4 2] ∧
      keepOnlyZoomedContentVisible 5 7 99 = Except.error "RangeError" :=
  ⟨(facade_forwards_range_unchanged 5 4 2).1 (by decide),
    (facade_forwards_range_unchanged 5 7 99).2 (by decide)⟩

/-- C5: with zero hidden segments, or more than two, the visibility query
returns none (it is a total function, so it cannot crash, and it returns no
range in those cases). -/
theorem visibleRange_none_of_bad_count (docLength : Nat) (v : List Segment)
    (h : v.length = 0 ∨ 2 < v.length) :
    calculateVisibleContentRange docLength v = none := by
  match v, h with
  | [], _ => rfl
  | a :: b :: c :: rest, _ => rfl
  | [a], h => simp at h
  | [a, b], h => simp at h

/-- Witness for C5: three segments give none. -/
theorem visibleRange_none_of_bad_count_witness :
    calculateVisibleContentRange 30 [⟨0, 3⟩, ⟨5, 7⟩, ⟨9, 12⟩] = none :=
  visibleRange_none_of_bad_count 30 [⟨0, 3⟩, ⟨5, 7⟩, ⟨9, 12⟩] (by decide)

/-- C6: a zoom-out effect empties the segment set whatever the prior value;
hence zoom-out when already idle leaves the hidden ranges empty, and
zoom-in followed (after arbitrary prior state and arbitrary document changes,
including changes carried by the zoom-out transaction itself) by zoom-out
restores the hidden ranges to empty. -/
theorem zoomOut_clears :
    (∀ (L : Nat) (v : List Segment), applyZoomEffect L v .zoomOut = []) ∧
      (∀ (cs : List Change) (L : Nat),
        calculateHiddenContentRanges
          (zoomStateFieldUpdate zoomStateFieldCreate ⟨cs, L, [.zoomOut]⟩) = []) ∧
      (∀ (v : List Segment) (f t L1 : Nat) (cs : List Change) (L2 : Nat),
        calculateHiddenContentRanges
          (zoomStateFieldUpdate (zoomStateFieldUpdate v ⟨[], L1, [.zoomIn f t]⟩)
            ⟨cs, L2, [.zoomOut]⟩) = []) := by
  refine ⟨applyZoomEffect_zoomOut_eq, fun cs L => ?_, fun v f t L1 cs L2 => ?_⟩ <;>
    simp [calculateHiddenContentRanges, rangeSetToArray, zoomStateFieldUpdate,
      applyZoomEffect_zoomOut_eq]

/-- C2: round-trip through the visibility query: applying a zoom-in(from, to)
effect (document length L, 0 ≤ from ≤ to ≤ L, not both from = 0 and to = L)
to any prior state and then querying returns exactly the range (from, to); in
particular at document length 50, zoom-in(10, 20) yields the segments [0,9)
and [21,50) and the visible range (10, 20). -/
theorem zoom_then_visible_roundtrip (v : List Segment) (L f t : Nat)
    (hft : f ≤ t) (htL : t ≤ L) (hne : ¬(f = 0 ∧ t = L)) :
    calculateVisibleContentRange L (zoomStateFieldUpdate v ⟨[], L, [.zoomIn f t]⟩)
        = some ⟨(f : Int), (t : Int)⟩ ∧
      calculateHiddenContentRanges (zoomStateFieldUpdate v ⟨[], 50, [.zoomIn 10 20]⟩)
        = [⟨0, 9⟩, ⟨21, 50⟩] ∧
      calculateVisibleContentRange 50 (zoomStateFieldUpdate v ⟨[], 50, [.zoomIn 10 20]⟩)
        = some ⟨10, 20⟩ := by
  refine ⟨visible_after_zoomIn v L f t hft htL hne, ?_, ?_⟩ <;>
    rw [update_zoomIn_eq] <;>
    simp [calculateVisibleContentRange, calculateHiddenContentRanges, rangeSetToArray]

/-- Witness for C2 at document length 50 and zoom range (10, 20). -/
theorem zoom_then_visible_roundtrip_witness :
    calculateVisibleContentRange 50 (zoomStateFieldUpdate [] ⟨[], 50, [.zoomIn 10 20]⟩)
      = some ⟨10, 20⟩ :=
  (zoom_then_visible_roundtrip [] 50 10 20 (by decide) (by decide) (by decide)).1

/-- C8: edit-resilience: from any zoomed state created by zoom-in(from, to)
(with from ≤ to ≤ L; the insertion offset k lies strictly before from, which
forces from > 0, so the state is zoomed), inserting N characters at offset k
shifts both bounds of the computed visible range by exactly N, preserving its
width: the visible range goes from (from, to) to (from + N, to + N). -/
theorem insert_before_zoom_shifts_visible (v : List Segment) (L f t k N : Nat)
    (hk : k < f) (hft : f ≤ t) (htL : t ≤ L) :
    calculateVisibleContentRange L (zoomStateFieldUpdate v ⟨[], L, [.zoomIn f t]⟩)
        = some ⟨(f : Int), (t : Int)⟩ ∧
      calculateVisibleContentRange (L + N)
        (zoomStateFieldUpdate (zoomStateFieldUpdate v ⟨[], L, [.zoomIn f t]⟩)
          ⟨[⟨k, k, N⟩], L + N, []⟩)
        = some ⟨(f : Int) + (N : Int), (t : Int) + (N : Int)⟩ := by
  have hf : 0 < f := Nat.lt_of_le_of_lt (Nat.zero_le k) hk
  refine ⟨visible_after_zoomIn v L f t hft htL (fun h => by omega), ?_⟩
  have hmap : zoomStateFieldUpdate (zoomStateFieldUpdate v ⟨[], L, [.zoomIn f t]⟩)
      ⟨[⟨k, k, N⟩], L + N, []⟩
      = rangeSetMap [⟨k, k, N⟩] (zoomStateFieldUpdate v ⟨[], L, [.zoomIn f t]⟩) := rfl
  rw [hmap, update_zoomIn_eq]
  have hS0 : mapPosStart [⟨k, k, N⟩] 0 = 0 := by
    simp [mapPosStart, mapPosStart1]
  have hSt : mapPosStart [⟨k, k, N⟩] (t + 1) = t + 1 + N := by
    simp only [mapPosStart, List.foldl, mapPosStart1]
    repeat' split
    all_goals omega
  have hEf : mapPosEnd [⟨k, k, N⟩] (f - 1) = f - 1 + N := by
    simp only [mapPosEnd, List.foldl, mapPosEnd1]
    repeat' split
    all_goals omega
  have hEL : mapPosEnd [⟨k, k, N⟩] L = L + N := by
    simp only [mapPosEnd, List.foldl, mapPosEnd1]
    repeat' split
    all_goals omega
  by_cases ht : t < L <;>
    simp [hf, ht, rangeSetMap, hS0, hSt, hEf, hEL, calculateVisibleContentRange,
      calculateHiddenContentRanges, rangeSetToArray]
  all_goals constructor <;> omega

/-- Witness for C8: document length 20, zoom-in(5, 10), insert 3 characters at
offset 2: the visible range moves from (5, 10) to (8, 13). -/
theorem insert_before_zoom_shifts_visible_witness :
    calculateVisibleContentRange 23
      (zoomStateFieldUpdate (zoomStateFieldUpdate [] ⟨[], 20, [.zoomIn 5 10]⟩)
        ⟨[⟨2, 2, 3⟩], 23, []⟩)
      = some ⟨8, 13⟩ :=
  (insert_before_zoom_shifts_visible [] 20 5 10 2 3 (by decide) (by decide) (by decide)).2

/-- C7: a zoom-in(c, d) effect yields the same segment set whatever the prior
segment set; in particular zoom-in(a, b) immediately followed by zoom-in(c, d)
in one update yields the same set as a fresh zoom-in(c, d) from any state, with
no residual segments from the first call. -/
theorem rezoom_overrides :
    (∀ (L : Nat) (v1 v2 : List Segment) (c d : Nat),
        applyZoomEffect L v1 (.zoomIn c d) = applyZoomEffect L v2 (.zoomIn c d)) ∧
      (∀ (v w : List Segment) (L a b c d : Nat),
        zoomStateFieldUpdate v ⟨[], L, [.zoomIn a b, .zoomIn c d]⟩
          = zoomStateFieldUpdate w ⟨[], L, [.zoomIn c d]⟩) := by
  constructor
  · intro L v1 v2 c d
    rw [applyZoomEffect_zoomIn_eq, applyZoomEffect_zoomIn_eq]
  · intro v w L a b c d
    unfold zoomStateFieldUpdate
    simp only [List.foldl]
    rw [applyZoomEffect_zoomIn_eq, applyZoomEffect_zoomIn_eq]
